import Mathlib

/-!
Verification of the sliding-window protocol (SWP) implementation in
`swp.py` (the `40269583` and `TestCode` variants): packet codec,
sender window with cumulative ACK handling, receiver out-of-order
buffering and in-order release.

Bytes are modelled as natural numbers, byte strings as `List Nat`.
Python's unbounded `int` is modelled as `Int` (or `Nat` where the
source value is provably non-negative, e.g. sequence counters that
start at 0 and are only incremented).  `struct.pack`'s range check on
the `I` (unsigned 32-bit) field is modelled explicitly; `struct.error`
and `ValueError` become `Option`/`Except` failures.
-/

/-- Byte strings (`bytes` in Python) as lists of byte values. -/
abbrev Data := List Nat

/-- SWPType: DATA = ord('D') = 68, ACK = ord('A') = 65. -/
inductive SWPType where
  | DATA
  | ACK
  deriving DecidableEq

/-- The numeric tag of a packet type (`type.value` in `to_bytes`). -/
def SWPType.value : SWPType → Nat
  | .DATA => 68
  | .ACK => 65

/-- SWPPacket: type, seq_num (a Python int — unbounded, may be negative),
payload. -/
structure SWPPacket where
  type : SWPType
  seq_num : Int
  data : Data
  deriving DecidableEq

/-- struct.pack of one unsigned 32-bit big-endian integer (the `I` in
format `!BI`).  Python raises `struct.error` when the value is outside
`[0, 2^32)`; that failure is the `none` case.  (For `0 ≤ v` the bound
`v < 2^32` is checked as `v.toNat < 2^32`, which is equivalent.) -/
def packUInt32 (v : Int) : Option Data :=
  if 0 ≤ v then
    if v.toNat < 4294967296 then
      some [v.toNat / 16777216 % 256, v.toNat / 65536 % 256, v.toNat / 256 % 256,
        v.toNat % 256]
    else none
  else none

/-- SWPPacket.to_bytes: `struct.pack('!BI', type.value, seq_num) + data`.
`none` models a `struct.error` escaping `to_bytes`. -/
def to_bytes (p : SWPPacket) : Option Data :=
  (packUInt32 p.seq_num).map (fun hdr => p.type.value :: (hdr ++ p.data))

/-- SWPPacket.from_bytes: unpack `!BI` from the first 5 bytes
(`struct.error` when fewer than 5 bytes are supplied), check the type
tag (`ValueError` from `SWPType(...)` when unrecognized), and take the
rest as payload.  Failures are `none`. -/
def from_bytes (raw : Data) : Option SWPPacket :=
  match raw with
  | b0 :: b1 :: b2 :: b3 :: b4 :: rest =>
    if b0 = 68 then
      some ⟨.DATA, ((((b1 * 256 + b2) * 256 + b3) * 256 + b4 : Nat) : Int), rest⟩
    else if b0 = 65 then
      some ⟨.ACK, ((((b1 * 256 + b2) * 256 + b3) * 256 + b4 : Nat) : Int), rest⟩
    else none
  | _ => none

/-- A DATA packet as held in the sender's send window (its type is
always `SWPType.DATA`; `seq_num` is assigned from the non-negative
`_next_seq_num` counter). -/
structure SendPacket where
  seq_num : Nat
  data : Data
  deriving DecidableEq

/-- The send window `_send_window`: a list of `(packet, send_timestamp)`
pairs (timestamps abstracted to `Nat`). -/
abbrev SendWindow := List (SendPacket × Nat)

/-- The ACK branch of `SWPSender._recv` (40269583) and the filter in
`SWPSender._handle_ack` (TestCode):
`[(p, t) for p, t in self._send_window if p.seq_num > packet.seq_num]`. -/
def handleAck (k : Nat) (w : SendWindow) : SendWindow :=
  w.filter (fun e => decide (k < e.1.seq_num))

/-- TestCode's `SWPSender._handle_ack` in full: the cumulative filter
followed by the scan of the *new* window for an entry whose `seq_num`
equals the ACK value (the body of that loop would call
`send_time.cancel()`).  The second component is the entry the scan
finds, if any. -/
def handleAckTC (k : Nat) (w : SendWindow) : SendWindow × Option (SendPacket × Nat) :=
  let w2 := w.filter (fun e => decide (k < e.1.seq_num))
  (w2, w2.find? (fun e => decide (e.1.seq_num = k)))

/-- Sender state: `_send_window` and `_next_seq_num`. -/
structure SendState where
  send_window : SendWindow
  next_seq_num : Nat
  deriving DecidableEq

/-- One synchronous step of the sender under its lock.
`transmit` is the body of `SWPSender._send` after the capacity wait:
it runs only when the window holds fewer than `_SEND_WINDOW_SIZE = 5`
entries (the busy-wait `while len(self._send_window) >= 5` has exited),
appends the new DATA packet with the current `_next_seq_num` and a
timestamp, and increments the counter.  `ackRecv` is the ACK branch of
`SWPSender._recv`.  `timerFire` is `SWPSender._retransmit`, which
resends a packet but never changes the window. -/
inductive SendStep : SendState → SendState → Prop where
  | transmit (st : SendState) (d : Data) (t : Nat)
      (h : st.send_window.length < 5) :
      SendStep st ⟨st.send_window ++ [(⟨st.next_seq_num, d⟩, t)], st.next_seq_num + 1⟩
  | ackRecv (st : SendState) (k : Nat) :
      SendStep st ⟨handleAck k st.send_window, st.next_seq_num⟩
  | timerFire (st : SendState) (s : Nat) : SendStep st st

/-- Sender states reachable from the initial state
(`_send_window = []`, `_next_seq_num = 0`). -/
def SendReachable (st : SendState) : Prop :=
  Relation.ReflTransGen SendStep ⟨[], 0⟩ st

/-- Receiver state: `_recv_buffer` (a Python dict from seq_num to
payload, modelled as an insertion-ordered association list with unique
keys), `_next_expected_seq_num` (starts at 0 and is only incremented,
hence a `Nat`), and the contents of the `_ready_data` FIFO queue. -/
structure RecvState where
  recv_buffer : List (Nat × Data)
  next_expected : Nat
  ready_data : List Data
  deriving DecidableEq

/-- The receiver's initial state. -/
def initRecv : RecvState := ⟨[], 0, []⟩

/-- Dict membership test / read: `seq_num in buffer` and `buffer[seq]`. -/
def dictLookup (k : Nat) : List (Nat × Data) → Option Data
  | [] => none
  | (k2, v) :: rest => if k2 = k then some v else dictLookup k rest

/-- Dict assignment `buffer[k] = v`: overwrite the entry if the key is
present, otherwise append it. -/
def dictInsert (k : Nat) (v : Data) : List (Nat × Data) → List (Nat × Data)
  | [] => [(k, v)]
  | (k2, v2) :: rest =>
    if k2 = k then (k, v) :: rest else (k2, v2) :: dictInsert k v rest

/-- Dict removal `buffer.pop(k)`: drop the entry holding key `k`. -/
def dictErase (k : Nat) : List (Nat × Data) → List (Nat × Data)
  | [] => []
  | (k2, v2) :: rest => if k2 = k then rest else (k2, v2) :: dictErase k rest

/-- The drain loop of the receiver's DATA handler:
`while self._next_expected_seq_num in self._recv_buffer: pop it, put
its payload on the ready queue, increment the counter.`  The loop is
written with explicit fuel; each iteration removes one buffer entry, so
fuel equal to the buffer's length makes the function agree with the
unbounded loop (see `drainGo_lookup_none`). -/
def drainGo : Nat → List (Nat × Data) → Nat → List Data →
    List (Nat × Data) × Nat × List Data
  | 0, buf, ne, q => (buf, ne, q)
  | fuel + 1, buf, ne, q =>
    match dictLookup ne buf with
    | none => (buf, ne, q)
    | some d => drainGo fuel (dictErase ne buf) (ne + 1) (q ++ [d])

/-- The cumulative ACK value carried by `_send_ack`:
`self._next_expected_seq_num - 1`, a Python int (−1 when the counter is
still 0). -/
def ackValue (ne : Nat) : Int := (ne : Int) - 1

/-- `SWPReceiver._send_ack`: build `SWPPacket(SWPType.ACK, ne - 1)` and
encode it.  `none` models the `struct.error` raised by `to_bytes` when
`ne - 1` does not fit the unsigned 32-bit field. -/
def sendAckBytes (ne : Nat) : Option Data :=
  to_bytes ⟨.ACK, ackValue ne, []⟩

/-- The buffer/counter/queue state after the store and drain steps of
the DATA handler: insert the payload at its seq_num, then run the drain
loop. -/
def drainState (s : Nat) (d : Data) (st : RecvState) : RecvState :=
  let buf1 := dictInsert s d st.recv_buffer
  let r := drainGo buf1.length buf1 st.next_expected st.ready_data
  ⟨r.1, r.2.1, r.2.2⟩

/-- The DATA branch of `SWPReceiver._recv` (40269583) /
`SWPReceiver._handle_data` (TestCode), for one arriving packet with
`seq_num = s` and payload `d`:
1. if `s < next_expected`, resend the current cumulative ACK (an
   uncaught `struct.error` there aborts the handler before the store);
2. store the payload at `buffer[s]` unconditionally;
3. drain the contiguous run starting at `next_expected` onto the ready
   queue;
4. send a cumulative ACK for the new `next_expected - 1`.
The result carries the new state and the list of ACK values actually
transmitted; `Except.error ()` models the handler dying on a
`struct.error` from `_send_ack`. -/
def handleData (s : Nat) (d : Data) (st : RecvState) :
    Except Unit (RecvState × List Int) :=
  if s < st.next_expected then
    match sendAckBytes st.next_expected with
    | none => .error ()
    | some _ =>
      let st2 := drainState s d st
      match sendAckBytes st2.next_expected with
      | none => .error ()
      | some _ => .ok (st2, [ackValue st.next_expected, ackValue st2.next_expected])
  else
    let st2 := drainState s d st
    match sendAckBytes st2.next_expected with
    | none => .error ()
    | some _ => .ok (st2, [ackValue st2.next_expected])

/-- Process a list of DATA arrivals `(seq_num, payload)` in order.  An
uncaught `struct.error` kills the receive thread, so processing stops
at the first failing handler. -/
def processArrivals : List (Nat × Data) → RecvState → Except Unit RecvState
  | [], st => .ok st
  | (s, d) :: rest, st =>
    match handleData s d st with
    | .error e => .error e
    | .ok (st2, _) => processArrivals rest st2

/-- Receiver states reachable from the initial state by handling DATA
packets.  Arriving seq_nums are decoded by `from_bytes` from a 4-byte
field, hence below 2^32. -/
def RecvReachable (st : RecvState) : Prop :=
  ∃ arrivals : List (Nat × Data),
    (∀ a ∈ arrivals, a.1 < 4294967296) ∧
    processArrivals arrivals initRecv = .ok st

/-- The segmentation loop of `SWPSender.send`:
`for i in range(0, len(data), SWPPacket.MAX_DATA_SIZE):
  self._send(data[i:i+SWPPacket.MAX_DATA_SIZE])`
with `MAX_DATA_SIZE = 1400`, written with fuel (the data shrinks by at
least one byte per chunk, so fuel equal to the length suffices). -/
def chunksGo : Nat → Data → List Data
  | 0, _ => []
  | _ + 1, [] => []
  | fuel + 1, b :: rest => (b :: rest).take 1400 :: chunksGo fuel ((b :: rest).drop 1400)

/-- The list of consecutive at-most-1400-byte chunks `send` produces. -/
def chunks (data : Data) : List Data := chunksGo data.length data

/-- Failure modes of the per-segment send path.  `deadlock`: the
capacity wait `while len(self._send_window) >= 5: time.sleep(0.1)` was
entered; it sits inside `with self._lock:`, so the ACK thread can never
acquire the lock to shrink the window and the wait never exits (this is
proved over the lock model by `blocked_send_never_unblocked`).
`packError`: `struct.error` from `to_bytes`. -/
inductive SendFailure where
  | deadlock
  | packError
  deriving DecidableEq

/-- One call of `SWPSender._send` on window `w`: if the window already
holds `_SEND_WINDOW_SIZE = 5` entries the busy-wait is entered and
never exits (`deadlock`); otherwise the DATA packet carrying the given
seq_num is built, encoded (`struct.error` aborts) and transmitted, and
appended to the window with its timestamp (abstracted to 0 — timestamps
never influence behavior) while the retransmission timer is armed
(which never changes the window). -/
def sendSegment (seq : Nat) (c : Data) (w : SendWindow) :
    Except SendFailure SendWindow :=
  if 5 ≤ w.length then .error .deadlock
  else
    match to_bytes ⟨.DATA, (seq : Int), c⟩ with
    | none => .error .packError
    | some _ => .ok (w ++ [(⟨seq, c⟩, 0)])

/-- The segmentation loop of `SWPSender.send` with the send window
threaded through the per-segment path.  Between two `_send` calls the
lock is free, so `SWPSender._recv` may process any number of arriving
ACKs; `sched seq` lists the cumulative ACK values it processes before
the segment with that seq_num is sent.  The schedule is resolved by
thread and network timing — a loss probability of 0 does not constrain
it.  Returns the transmitted `(seq_num, payload)` segments in order
together with the final window. -/
def sendLoop (sched : Nat → List Nat) : List Data → Nat → SendWindow →
    Except SendFailure (List (Nat × Data) × SendWindow)
  | [], _, w => .ok ([], w)
  | c :: rest, seq, w =>
    let w1 := (sched seq).foldl (fun acc k => handleAck k acc) w
    match sendSegment seq c w1 with
    | .error e => .error e
    | .ok w2 =>
      (sendLoop sched rest (seq + 1) w2).map (fun r => ((seq, c) :: r.1, r.2))

/-- The schedule in which no ACK reaches the sender while `send` is
still segmenting — the inevitable schedule whenever the ACK round trip
is slower than the in-process segmentation loop. -/
def noAckSched : Nat → List Nat := fun _ => []

/-- Helper: a filtered window retains exactly the entries with
`seq_num > k`, in their original order. -/
theorem mem_handleAck {k : Nat} {w : SendWindow} {e : SendPacket × Nat} :
    e ∈ handleAck k w ↔ e ∈ w ∧ k < e.1.seq_num := by
  simp [handleAck, List.mem_filter]

/-- C9.  `decode` fails exactly when fewer than 5 bytes are supplied or
the leading type tag is neither `0x44` (DATA) nor `0x41` (ACK); any
input of at least 5 bytes with a recognized tag decodes successfully,
with no constraint on the payload length. -/
theorem from_bytes_none_iff (raw : Data) :
    from_bytes raw = none ↔
      raw.length < 5 ∨ (raw.getD 0 0 ≠ 68 ∧ raw.getD 0 0 ≠ 65) := by
  match raw with
  | [] => simp [from_bytes]
  | [b0] => simp [from_bytes]
  | [b0, b1] => simp [from_bytes]
  | [b0, b1, b2] => simp [from_bytes]
  | [b0, b1, b2, b3] => simp [from_bytes]
  | b0 :: b1 :: b2 :: b3 :: b4 :: rest =>
    by_cases h0 : b0 = 68
    · simp [from_bytes, h0]
    · by_cases h1 : b0 = 65 <;> simp [from_bytes, h0, h1]

/-- C10.  The two sender ACK paths agree: TestCode's `_handle_ack`
computes the same filtered window as the 40269583 `_recv` ACK branch,
and its timer-cancellation scan never finds an entry (after the
cumulative filter no remaining entry can carry the acknowledged
seq_num), so the loop body calling `send_time.cancel()` is dead code. -/
theorem handleAckTC_eq_handleAck (k : Nat) (w : SendWindow) :
    handleAckTC k w = (handleAck k w, none) := by
  unfold handleAckTC handleAck
  refine Prod.ext rfl ?_
  simp only
  rw [List.find?_eq_none]
  intro e he
  have := (List.mem_filter.mp he).2
  simp only [decide_eq_true_eq] at this ⊢
  omega

/-- C4.  At every reachable sender state the send window holds at most
`_SEND_WINDOW_SIZE = 5` entries: a packet is appended only when the
capacity check `len(self._send_window) >= 5` has failed, ACK processing
only removes entries, and retransmission leaves the window unchanged. -/
theorem send_window_bounded (st : SendState) (h : SendReachable st) :
    st.send_window.length ≤ 5 := by
  induction h with
  | refl => simp
  | tail _ step ih =>
    cases step with
    | transmit d t hlt => simp only [List.length_append, List.length_singleton]; omega
    | ackRecv k =>
      simp only [handleAck]
      exact le_trans (List.length_filter_le _ _) ih
    | timerFire s => exact ih

/-- Witness for `send_window_bounded` at the initial sender state. -/
theorem send_window_bounded_witness :
    (SendState.mk [] 0).send_window.length ≤ 5 :=
  send_window_bounded ⟨[], 0⟩ Relation.ReflTransGen.refl

/-- C2, counterexample.  From the initial sender one `transmit` step
reaches the state with window `[(seq 0, payload [7])]` and
`_next_seq_num = 1`, so seq_num 7 has never been assigned; yet
processing ACK(7) removes the entry for seq 0 — an ACK for a
never-existing seq_num does NOT leave the window unchanged. -/
theorem ack_for_never_assigned_changes_window :
    SendReachable ⟨[(⟨0, [7]⟩, 0)], 1⟩ ∧ (1 : Nat) ≤ 7 ∧
      handleAck 7 [(⟨0, [7]⟩, 0)] ≠ [(⟨0, [7]⟩, 0)] := by
  refine ⟨?_, by norm_num, by decide⟩
  exact Relation.ReflTransGen.single (SendStep.transmit ⟨[], 0⟩ [7] 0 (by simp))

/-- C2, amended.  Processing ACK(k) keeps exactly the entries with
`seq_num > k` (so none with `seq_num ≤ k` survive), preserves the
surviving entries and their order, is idempotent, and is the identity
whenever no entry has `seq_num ≤ k` — in particular an ACK whose value
was already covered by an earlier cumulative ACK changes nothing.  (An
ACK for a never-assigned seq_num, however, removes all entries at or
below it, as `ack_for_never_assigned_changes_window` shows.) -/
theorem handleAck_cumulative (k : Nat) (w : SendWindow) :
    (∀ e ∈ handleAck k w, k < e.1.seq_num) ∧
    (∀ e ∈ w, k < e.1.seq_num → e ∈ handleAck k w) ∧
    (handleAck k w).Sublist w ∧
    handleAck k (handleAck k w) = handleAck k w ∧
    ((∀ e ∈ w, k < e.1.seq_num) → handleAck k w = w) := by
  refine ⟨fun e he => (mem_handleAck.mp he).2,
    fun e he hk => mem_handleAck.mpr ⟨he, hk⟩,
    List.filter_sublist w, ?_, fun h => ?_⟩
  · apply List.filter_eq_self.mpr
    intro e he
    exact decide_eq_true (mem_handleAck.mp he).2
  · apply List.filter_eq_self.mpr
    intro e he
    exact decide_eq_true (h e he)

/-- Witness for `handleAck_cumulative`: the identity clause at a
concrete window whose sole entry is above the ACK value. -/
theorem handleAck_cumulative_witness :
    handleAck 3 [(⟨7, [1]⟩, 0)] = [(⟨7, [1]⟩, 0)] :=
  (handleAck_cumulative 3 [(⟨7, [1]⟩, 0)]).2.2.2.2 (by decide)

/-- C6.  The receiver's ACK construction does NOT always succeed: with
`next_expected = 0` (the initial state) an arriving DATA packet with
seq_num 3 leaves the counter at 0, `_send_ack` builds an ACK with value
−1, and `struct.pack('!BI', ...)` rejects −1 for the unsigned 32-bit
field — the handler dies on the resulting `struct.error`. -/
theorem ack_encode_fails_at_next_expected_zero :
    sendAckBytes 0 = none ∧ handleData 3 [9] initRecv = .error () := by
  constructor <;> rfl

/-- A key is present in the buffer. -/
def keyMem (x : Nat) (b : List (Nat × Data)) : Prop := ∃ v, (x, v) ∈ b

theorem dictLookup_some_mem {k : Nat} {v : Data} {b : List (Nat × Data)}
    (h : dictLookup k b = some v) : (k, v) ∈ b := by
  induction b with
  | nil => simp [dictLookup] at h
  | cons e rest ih =>
    obtain ⟨k2, v2⟩ := e
    by_cases hk : k2 = k
    · subst hk
      simp [dictLookup] at h
      simp [h]
    · simp [dictLookup, hk] at h
      exact List.mem_cons_of_mem _ (ih h)

theorem dictLookup_eq_none_iff {k : Nat} {b : List (Nat × Data)} :
    dictLookup k b = none ↔ ¬ keyMem k b := by
  induction b with
  | nil => simp [dictLookup, keyMem]
  | cons e rest ih =>
    obtain ⟨k2, v2⟩ := e
    by_cases hk : k2 = k
    · subst hk
      simp [dictLookup, keyMem]
    · simp only [dictLookup, hk, if_false, ih, keyMem]
      constructor
      · rintro h ⟨v, hv⟩
        rcases List.mem_cons.mp hv with h2 | h2
        · exact hk (by injection h2 with h3 h4; exact h3.symm)
        · exact h ⟨v, h2⟩
      · rintro h ⟨v, hv⟩
        exact h ⟨v, List.mem_cons_of_mem _ hv⟩

theorem dictLookup_insert_self (k : Nat) (v : Data) (b : List (Nat × Data)) :
    dictLookup k (dictInsert k v b) = some v := by
  induction b with
  | nil => simp [dictInsert, dictLookup]
  | cons e rest ih =>
    obtain ⟨k2, v2⟩ := e
    by_cases hk : k2 = k
    · simp [dictInsert, hk, dictLookup]
    · simp [dictInsert, hk, dictLookup, ih]

theorem dictLookup_insert_ne {k2 k : Nat} (v : Data) (b : List (Nat × Data))
    (h : k2 ≠ k) : dictLookup k2 (dictInsert k v b) = dictLookup k2 b := by
  induction b with
  | nil => simp [dictInsert, dictLookup, Ne.symm h]
  | cons e rest ih =>
    obtain ⟨k3, v3⟩ := e
    by_cases hk : k3 = k
    · subst hk
      simp [dictInsert, dictLookup, Ne.symm h]
    · by_cases hk2 : k3 = k2 <;> simp [dictInsert, hk, dictLookup, hk2, h, ih]

theorem mem_dictInsert {e : Nat × Data} {k : Nat} {v : Data}
    {b : List (Nat × Data)} (h : e ∈ dictInsert k v b) :
    e = (k, v) ∨ e ∈ b := by
  induction b with
  | nil =>
    simp only [dictInsert] at h
    exact Or.inl (List.mem_singleton.mp h)
  | cons e2 rest ih =>
    obtain ⟨k2, v2⟩ := e2
    by_cases hk : k2 = k
    · simp only [dictInsert, hk, eq_self_iff_true, if_true, List.mem_cons] at h
      rcases h with h | h
      · exact Or.inl h
      · exact Or.inr (List.mem_cons_of_mem _ h)
    · simp only [dictInsert, hk, if_false, List.mem_cons] at h
      rcases h with h | h
      · exact Or.inr (by simp [h])
      · rcases ih h with h2 | h2
        · exact Or.inl h2
        · exact Or.inr (List.mem_cons_of_mem _ h2)

theorem keyMem_dictInsert_self (k : Nat) (v : Data) (b : List (Nat × Data)) :
    keyMem k (dictInsert k v b) :=
  ⟨v, dictLookup_some_mem (dictLookup_insert_self k v b)⟩

theorem mem_dictInsert_of_mem {x k : Nat} {w v : Data} (hx : x ≠ k) :
    ∀ b : List (Nat × Data), (x, w) ∈ b → (x, w) ∈ dictInsert k v b := by
  intro b
  induction b with
  | nil => intro hw; simp at hw
  | cons e rest ih =>
    intro hw
    obtain ⟨k2, v2⟩ := e
    by_cases hk : k2 = k
    · subst hk
      rcases List.mem_cons.mp hw with h2 | h2
      · exact absurd (congrArg Prod.fst h2) hx
      · simp [dictInsert, List.mem_cons_of_mem _ h2]
    · rcases List.mem_cons.mp hw with h2 | h2
      · simp [dictInsert, hk, h2]
      · simp only [dictInsert, hk, if_false, List.mem_cons]
        exact Or.inr (ih h2)

theorem keyMem_dictInsert_of_mem {x k : Nat} {v : Data} {b : List (Nat × Data)}
    (h : keyMem x b) : keyMem x (dictInsert k v b) := by
  by_cases hx : x = k
  · subst hx; exact keyMem_dictInsert_self x v b
  · obtain ⟨w, hw⟩ := h
    exact ⟨w, mem_dictInsert_of_mem hx b hw⟩

theorem mem_dictErase {e : Nat × Data} {k : Nat} {b : List (Nat × Data)}
    (h : e ∈ dictErase k b) : e ∈ b := by
  induction b with
  | nil => simp [dictErase] at h
  | cons e2 rest ih =>
    obtain ⟨k2, v2⟩ := e2
    by_cases hk : k2 = k
    · simp only [dictErase, hk, if_true] at h
      exact List.mem_cons_of_mem _ h
    · simp only [dictErase, hk, if_false, List.mem_cons] at h
      rcases h with h | h
      · simp [h]
      · exact List.mem_cons_of_mem _ (ih h)

theorem mem_dictErase_of_mem {x k : Nat} {w : Data} (hx : x ≠ k) :
    ∀ b : List (Nat × Data), (x, w) ∈ b → (x, w) ∈ dictErase k b := by
  intro b
  induction b with
  | nil => intro hw; simp at hw
  | cons e rest ih =>
    intro hw
    obtain ⟨k2, v2⟩ := e
    by_cases hk : k2 = k
    · subst hk
      rcases List.mem_cons.mp hw with h2 | h2
      · exact absurd (congrArg Prod.fst h2) hx
      · simp [dictErase, h2]
    · rcases List.mem_cons.mp hw with h2 | h2
      · simp [dictErase, hk, h2]
      · simp only [dictErase, hk, if_false, List.mem_cons]
        exact Or.inr (ih h2)

theorem keyMem_dictErase {x k : Nat} {b : List (Nat × Data)}
    (h : keyMem x b) : x = k ∨ keyMem x (dictErase k b) := by
  by_cases hx : x = k
  · exact Or.inl hx
  · obtain ⟨w, hw⟩ := h
    exact Or.inr ⟨w, mem_dictErase_of_mem hx b hw⟩

theorem dictErase_length {k : Nat} {v : Data} {b : List (Nat × Data)}
    (h : dictLookup k b = some v) :
    (dictErase k b).length + 1 = b.length := by
  induction b with
  | nil => simp [dictLookup] at h
  | cons e rest ih =>
    obtain ⟨k2, v2⟩ := e
    by_cases hk : k2 = k
    · simp [dictErase, hk]
    · simp only [dictLookup, hk, if_false] at h
      simp [dictErase, hk, ih h]

theorem drainGo_ne_le : ∀ (fuel : Nat) (buf : List (Nat × Data)) (ne : Nat)
    (q : List Data), ne ≤ (drainGo fuel buf ne q).2.1 := by
  intro fuel
  induction fuel with
  | zero => intro buf ne q; simp [drainGo]
  | succ fuel ih =>
    intro buf ne q
    cases h : dictLookup ne buf with
    | none => simp [drainGo, h]
    | some d =>
      simp only [drainGo, h]
      exact le_trans (Nat.le_succ ne) (ih _ _ _)

/-- With fuel at least the buffer size, the drain loop runs to its real
exit condition: the final `next_expected` is absent from the final
buffer (this is exactly the `while ... in ...` guard being false). -/
theorem drainGo_lookup_none : ∀ (fuel : Nat) (buf : List (Nat × Data)) (ne : Nat)
    (q : List Data), buf.length ≤ fuel →
    dictLookup (drainGo fuel buf ne q).2.1 (drainGo fuel buf ne q).1 = none := by
  intro fuel
  induction fuel with
  | zero =>
    intro buf ne q hlen
    have hb : buf = [] := List.length_eq_zero.mp (Nat.le_zero.mp hlen)
    subst hb
    simp [drainGo, dictLookup]
  | succ fuel ih =>
    intro buf ne q hlen
    cases h : dictLookup ne buf with
    | none => simp only [drainGo, h]
    | some d =>
      simp only [drainGo, h]
      apply ih
      have := dictErase_length h
      omega

theorem drainGo_entries (P : Nat × Data → Prop) : ∀ (fuel : Nat) buf ne q,
    (∀ e ∈ buf, P e) → ∀ e ∈ (drainGo fuel buf ne q).1, P e := by
  intro fuel
  induction fuel with
  | zero => intro buf ne q hP; simpa [drainGo] using hP
  | succ fuel ih =>
    intro buf ne q hP
    cases h : dictLookup ne buf with
    | none => simpa [drainGo, h] using hP
    | some d =>
      simp only [drainGo, h]
      exact ih _ _ _ (fun e he => hP e (mem_dictErase he))

theorem drainGo_keyMem : ∀ (fuel : Nat) buf ne q (x : Nat), keyMem x buf →
    x < (drainGo fuel buf ne q).2.1 ∨ keyMem x (drainGo fuel buf ne q).1 := by
  intro fuel
  induction fuel with
  | zero => intro buf ne q x hx; exact Or.inr hx
  | succ fuel ih =>
    intro buf ne q x hx
    cases h : dictLookup ne buf with
    | none => simp only [drainGo, h]; exact Or.inr hx
    | some d =>
      simp only [drainGo, h]
      rcases keyMem_dictErase (k := ne) hx with h2 | h2
      · subst h2
        exact Or.inl (lt_of_lt_of_le (Nat.lt_succ_self x) (drainGo_ne_le _ _ _ _))
      · exact ih _ _ _ _ h2

/-- Every seq_num the drain loop steps over was a key of the buffer it
started from. -/
theorem drainGo_covered : ∀ (fuel : Nat) buf ne q (k : Nat), ne ≤ k →
    k < (drainGo fuel buf ne q).2.1 → keyMem k buf := by
  intro fuel
  induction fuel with
  | zero =>
    intro buf ne q k h1 h2
    exact absurd h2 (not_lt.mpr h1)
  | succ fuel ih =>
    intro buf ne q k h1 h2
    cases h : dictLookup ne buf with
    | none =>
      simp only [drainGo, h] at h2
      exact absurd h2 (not_lt.mpr h1)
    | some d =>
      simp only [drainGo, h] at h2
      by_cases hk : k = ne
      · subst hk; exact ⟨d, dictLookup_some_mem h⟩
      · obtain ⟨v, hv⟩ := ih _ _ _ _ (by omega) h2
        exact ⟨v, mem_dictErase hv⟩

theorem drainGo_advance : ∀ (fuel : Nat) buf ne q (d : Data),
    buf.length ≤ fuel → dictLookup ne buf = some d →
    ne + 1 ≤ (drainGo fuel buf ne q).2.1 := by
  intro fuel buf ne q d hlen h
  cases fuel with
  | zero =>
    have hm : (ne, d) ∈ buf := dictLookup_some_mem h
    have hb : buf ≠ [] := by rintro rfl; simp at hm
    have := List.length_pos.mpr hb
    omega
  | succ fuel =>
    simp only [drainGo, h]
    exact drainGo_ne_le _ _ _ _

/-- The payloads appended to the ready queue by the drain loop are
exactly those of the contiguous seq_num run it releases, in order. -/
theorem drainGo_ready (payload : Nat → Data) : ∀ (fuel : Nat) buf ne q,
    (∀ e ∈ buf, e.2 = payload e.1) →
    (drainGo fuel buf ne q).2.2 =
      q ++ (List.range' ne ((drainGo fuel buf ne q).2.1 - ne)).map payload := by
  intro fuel
  induction fuel with
  | zero => intro buf ne q hP; simp [drainGo]
  | succ fuel ih =>
    intro buf ne q hP
    cases h : dictLookup ne buf with
    | none => simp [drainGo, h]
    | some d =>
      simp only [drainGo, h]
      have hd : d = payload ne := by
        simpa using hP _ (dictLookup_some_mem h)
      have hrec := ih (dictErase ne buf) (ne + 1) (q ++ [d])
        (fun e he => hP e (mem_dictErase he))
      have hle : ne + 1 ≤ (drainGo fuel (dictErase ne buf) (ne + 1) (q ++ [d])).2.1 :=
        drainGo_ne_le _ _ _ _
      rw [hrec, hd, List.append_assoc]
      congr 1
      have harith : (drainGo fuel (dictErase ne buf) (ne + 1) (q ++ [payload ne])).2.1 - ne
          = ((drainGo fuel (dictErase ne buf) (ne + 1) (q ++ [payload ne])).2.1 - (ne + 1)) + 1 := by
        rw [hd] at hle
        omega
      rw [harith, List.range'_succ]
      simp

theorem drainGo_ne_bound {m : Nat} : ∀ (fuel : Nat) buf ne q,
    (∀ e ∈ buf, e.1 < m) → ne ≤ m → (drainGo fuel buf ne q).2.1 ≤ m := by
  intro fuel buf ne q hkeys hne
  by_cases h : (drainGo fuel buf ne q).2.1 ≤ ne
  · omega
  · obtain ⟨v, hv⟩ := drainGo_covered fuel buf ne q ((drainGo fuel buf ne q).2.1 - 1)
      (by omega) (by omega)
    have := hkeys _ hv
    simp only at this
    omega

theorem sendAckBytes_some (ne : Nat) (h1 : 1 ≤ ne) (h2 : ne ≤ 4294967296) :
    ∃ bs, sendAckBytes ne = some bs := by
  have ha : (0 : Int) ≤ (ne : Int) - 1 := by omega
  have hb : ((ne : Int) - 1).toNat < 4294967296 := by omega
  unfold sendAckBytes to_bytes packUInt32
  simp only [ackValue]
  rw [if_pos ha, if_pos hb]
  exact ⟨_, rfl⟩

theorem sendAckBytes_none (ne : Nat) (h : ne = 0 ∨ 4294967296 < ne) :
    sendAckBytes ne = none := by
  unfold sendAckBytes to_bytes packUInt32
  simp only [ackValue]
  rcases h with h | h
  · subst h
    have ha : ¬ (0 : Int) ≤ ((0 : Nat) : Int) - 1 := by omega
    rw [if_neg ha]
    rfl
  · have ha : (0 : Int) ≤ (ne : Int) - 1 := by omega
    have hb : ¬ ((ne : Int) - 1).toNat < 4294967296 := by omega
    rw [if_pos ha, if_neg hb]
    rfl

/-- Characterization of a successful DATA handler run: when both ACK
encodings succeed, the handler returns the drained state together with
the transmitted ACK values (two of them on a duplicate of an
already-released seq_num, one otherwise). -/
theorem handleData_eq_ok (s : Nat) (d : Data) (st : RecvState)
    (hdup : s < st.next_expected →
      1 ≤ st.next_expected ∧ st.next_expected ≤ 4294967296)
    (hfin : 1 ≤ (drainState s d st).next_expected ∧
      (drainState s d st).next_expected ≤ 4294967296) :
    handleData s d st = .ok (drainState s d st,
      if s < st.next_expected then
        [ackValue st.next_expected, ackValue (drainState s d st).next_expected]
      else [ackValue (drainState s d st).next_expected]) := by
  obtain ⟨bs2, hbs2⟩ := sendAckBytes_some _ hfin.1 hfin.2
  by_cases h : s < st.next_expected
  · obtain ⟨bs1, hbs1⟩ := sendAckBytes_some _ (hdup h).1 (hdup h).2
    simp [handleData, h, hbs1, hbs2]
  · simp [handleData, h, hbs2]

theorem drainState_ne_le (s : Nat) (d : Data) (st : RecvState) :
    st.next_expected ≤ (drainState s d st).next_expected :=
  drainGo_ne_le _ _ _ _

theorem drainState_lookup_none (s : Nat) (d : Data) (st : RecvState) :
    dictLookup (drainState s d st).next_expected
      (drainState s d st).recv_buffer = none :=
  drainGo_lookup_none _ _ _ _ (le_refl _)

/-- The basic receiver invariant: the next expected seq_num is never a
buffer key, every buffer key is a wire-decodable seq_num (< 2^32), and
the counter itself stays within [0, 2^32]. -/
def RInv (st : RecvState) : Prop :=
  dictLookup st.next_expected st.recv_buffer = none ∧
  (∀ e ∈ st.recv_buffer, e.1 < 4294967296) ∧
  st.next_expected ≤ 4294967296

theorem sendAckBytes_some_bounds {ne : Nat} {bs : Data}
    (h : sendAckBytes ne = some bs) : 1 ≤ ne ∧ ne ≤ 4294967296 := by
  by_cases hb : ne = 0 ∨ 4294967296 < ne
  · rw [sendAckBytes_none ne hb] at h
    cases h
  · push_neg at hb
    omega

/-- Inversion of a successful DATA handler run: the resulting state is
the drained state and the final ACK encoding succeeded (so the new
counter lies in [1, 2^32]); on the duplicate path the first ACK
encoding succeeded too. -/
theorem handleData_ok_inv {s : Nat} {d : Data} {st st2 : RecvState}
    {acks : List Int} (hok : handleData s d st = .ok (st2, acks)) :
    st2 = drainState s d st ∧
    1 ≤ (drainState s d st).next_expected ∧
    (drainState s d st).next_expected ≤ 4294967296 ∧
    (s < st.next_expected →
      1 ≤ st.next_expected ∧ st.next_expected ≤ 4294967296) := by
  by_cases h : s < st.next_expected
  · simp only [handleData, if_pos h] at hok
    cases h1 : sendAckBytes st.next_expected with
    | none => simp [h1] at hok
    | some b1 =>
      simp only [h1] at hok
      cases h2 : sendAckBytes (drainState s d st).next_expected with
      | none => simp [h2] at hok
      | some b2 =>
        simp only [h2] at hok
        have h3 := Except.ok.inj hok
        refine ⟨(congrArg Prod.fst h3).symm, (sendAckBytes_some_bounds h2).1,
          (sendAckBytes_some_bounds h2).2, fun _ => sendAckBytes_some_bounds h1⟩
  · simp only [handleData, if_neg h] at hok
    cases h2 : sendAckBytes (drainState s d st).next_expected with
    | none => simp [h2] at hok
    | some b2 =>
      simp only [h2] at hok
      have h3 := Except.ok.inj hok
      refine ⟨(congrArg Prod.fst h3).symm, (sendAckBytes_some_bounds h2).1,
        (sendAckBytes_some_bounds h2).2, fun hlt => absurd hlt h⟩

theorem handleData_RInv {s : Nat} {d : Data} {st st2 : RecvState}
    {acks : List Int} (hinv : RInv st) (hs : s < 4294967296)
    (hok : handleData s d st = .ok (st2, acks)) : RInv st2 := by
  obtain ⟨hst, h1, h2, h3⟩ := handleData_ok_inv hok
  subst hst
  refine ⟨drainState_lookup_none s d st, ?_, h2⟩
  intro e he
  have hkeys1 : ∀ e2 ∈ dictInsert s d st.recv_buffer, e2.1 < 4294967296 := by
    intro e2 he2
    rcases mem_dictInsert he2 with h4 | h4
    · simp [h4, hs]
    · exact hinv.2.1 e2 h4
  exact drainGo_entries _ _ _ _ _ hkeys1 e he

theorem processArrivals_RInv : ∀ (l : List (Nat × Data)) (st st2 : RecvState),
    (∀ a ∈ l, a.1 < 4294967296) → RInv st →
    processArrivals l st = .ok st2 → RInv st2 := by
  intro l
  induction l with
  | nil =>
    intro st st2 _ hinv hok
    exact Except.ok.inj hok ▸ hinv
  | cons a rest ih =>
    intro st st2 hb hinv hok
    obtain ⟨s, d⟩ := a
    simp only [processArrivals] at hok
    cases h : handleData s d st with
    | error e => simp [h] at hok
    | ok p =>
      obtain ⟨st1, acks⟩ := p
      simp only [h] at hok
      refine ih st1 st2 (fun a ha => hb a (List.mem_cons_of_mem _ ha)) ?_ hok
      exact handleData_RInv hinv (by simpa using hb (s, d) (List.mem_cons_self _ _)) h

theorem RInv_initRecv : RInv initRecv := by
  refine ⟨rfl, ?_, by norm_num [initRecv]⟩
  intro e he
  simp [initRecv] at he

theorem RecvReachable_RInv {st : RecvState} (h : RecvReachable st) : RInv st := by
  obtain ⟨arr, hb, hok⟩ := h
  exact processArrivals_RInv arr initRecv st hb RInv_initRecv hok

theorem drainGo_stop {fuel : Nat} {buf : List (Nat × Data)} {ne : Nat}
    {q : List Data} (h : dictLookup ne buf = none) :
    drainGo fuel buf ne q = (buf, ne, q) := by
  cases fuel <;> simp [drainGo, h]

theorem drainState_ne_eq (s : Nat) (d : Data) (st : RecvState) :
    (drainState s d st).next_expected =
      (drainGo (dictInsert s d st.recv_buffer).length (dictInsert s d st.recv_buffer)
        st.next_expected st.ready_data).2.1 := rfl

theorem drainState_buf_eq (s : Nat) (d : Data) (st : RecvState) :
    (drainState s d st).recv_buffer =
      (drainGo (dictInsert s d st.recv_buffer).length (dictInsert s d st.recv_buffer)
        st.next_expected st.ready_data).1 := rfl

theorem drainState_ready_eq (s : Nat) (d : Data) (st : RecvState) :
    (drainState s d st).ready_data =
      (drainGo (dictInsert s d st.recv_buffer).length (dictInsert s d st.recv_buffer)
        st.next_expected st.ready_data).2.2 := rfl

/-- C8, counterexample.  The state reached by the arrivals 0, 0 (the
second a duplicate of the already-released segment 0) retains the key 0
in the receive buffer while `next_expected` is 1: an already-delivered
seq_num IS kept in the buffer after its duplicate arrival is handled,
so not every remaining key exceeds `next_expected`. -/
theorem stale_duplicate_retained_in_buffer :
    RecvReachable ⟨[(0, [9])], 1, [[9]]⟩ ∧
    dictLookup 0 [(0, [9])] = some [9] ∧ ¬ ((1 : Nat) < 0) := by
  refine ⟨⟨[(0, [9]), (0, [9])], by decide, by rfl⟩, rfl, by decide⟩

/-- C8, amended.  At every reachable receiver state the buffer never
holds the key `next_expected` (the drain loop runs until that key is
absent), so every buffered key differs from `next_expected`; but keys
below `next_expected` can remain, deposited by duplicate arrivals of
already-released segments (see `stale_duplicate_retained_in_buffer`). -/
theorem recv_buffer_free_of_next_expected (st : RecvState)
    (h : RecvReachable st) :
    dictLookup st.next_expected st.recv_buffer = none :=
  (RecvReachable_RInv h).1

/-- Witness for `recv_buffer_free_of_next_expected` at the reachable
state holding the stale key 0 with `next_expected = 1`. -/
theorem recv_buffer_free_of_next_expected_witness :
    dictLookup 1 [(0, [9])] = none :=
  recv_buffer_free_of_next_expected ⟨[(0, [9])], 1, [[9]]⟩
    ⟨[(0, [9]), (0, [9])], by decide, by rfl⟩

/-- C7, counterexample.  At the reachable state with `next_expected = 1`
(segment 0 already released), a duplicate DATA arrival with seq_num 0
transmits TWO ACKs — the duplicate-triggered resend of line 152/180 and
the unconditional final ACK — not exactly one. -/
theorem duplicate_arrival_sends_two_acks :
    RecvReachable ⟨[], 1, [[9]]⟩ ∧
    handleData 0 [9] ⟨[], 1, [[9]]⟩ = .ok (⟨[(0, [9])], 1, [[9]]⟩, [0, 0]) ∧
    ([0, 0] : List Int).length ≠ 1 := by
  refine ⟨⟨[(0, [9])], by decide, by rfl⟩, by rfl, by decide⟩

/-- C7, amended.  At every reachable receiver state, handling a DATA
arrival with wire-decodable seq_num `s` behaves as follows: it dies on
a `struct.error` (transmitting no ACK at all) exactly when
`next_expected` is still 0 and `s > 0`; otherwise it succeeds, and the
transmitted ACKs all carry `next_expected − 1` — the highest contiguous
seq_num received — but there are exactly TWO of them (the duplicate
resend plus the unconditional final ACK) when `s < next_expected`, and
exactly one otherwise. -/
theorem handleData_ack_per_arrival (st : RecvState) (h : RecvReachable st)
    (s : Nat) (hs : s < 4294967296) (d : Data) :
    (handleData s d st = .error () ↔ st.next_expected = 0 ∧ 0 < s) ∧
    (∀ st2 acks, handleData s d st = .ok (st2, acks) →
      acks = if s < st.next_expected
        then [ackValue st.next_expected, ackValue st.next_expected]
        else [ackValue st2.next_expected]) := by
  obtain ⟨hfree, hkeys, hne⟩ := RecvReachable_RInv h
  by_cases hdup : s < st.next_expected
  · have hstop : dictLookup st.next_expected (dictInsert s d st.recv_buffer) = none := by
      rw [dictLookup_insert_ne d st.recv_buffer (by omega : st.next_expected ≠ s)]
      exact hfree
    have hds : drainState s d st =
        ⟨dictInsert s d st.recv_buffer, st.next_expected, st.ready_data⟩ := by
      simp only [drainState]
      rw [drainGo_stop hstop]
    have hne1 : 1 ≤ st.next_expected := by omega
    have hok := handleData_eq_ok s d st (fun _ => ⟨hne1, hne⟩)
      (by rw [hds]; exact ⟨hne1, hne⟩)
    rw [if_pos hdup] at hok
    constructor
    · rw [hok]
      constructor
      · intro hc; cases hc
      · intro hc; omega
    · intro st2 acks h2
      rw [hok] at h2
      injection Except.ok.inj h2 with h4 h5
      rw [if_pos hdup, ← h5]
      simp [hds]
  · by_cases hz : st.next_expected = 0 ∧ 0 < s
    · obtain ⟨hz0, hspos⟩ := hz
      have hstop : dictLookup st.next_expected (dictInsert s d st.recv_buffer) = none := by
        rw [dictLookup_insert_ne d st.recv_buffer (by omega : st.next_expected ≠ s)]
        exact hfree
      have hds : drainState s d st =
          ⟨dictInsert s d st.recv_buffer, st.next_expected, st.ready_data⟩ := by
        simp only [drainState]
        rw [drainGo_stop hstop]
      have hsab : sendAckBytes (drainState s d st).next_expected = none := by
        rw [hds]
        show sendAckBytes st.next_expected = none
        rw [hz0]
        exact sendAckBytes_none 0 (Or.inl rfl)
      have herr : handleData s d st = .error () := by
        simp only [handleData, if_neg hdup, hsab]
      constructor
      · rw [herr]
        simp [hz0, hspos]
      · intro st2 acks h2
        rw [herr] at h2
        cases h2
    · have hb1 : ∀ e ∈ dictInsert s d st.recv_buffer, e.1 < 4294967296 := by
        intro e he
        rcases mem_dictInsert he with h4 | h4
        · simp [h4, hs]
        · exact hkeys e h4
      have hfin1 : 1 ≤ (drainState s d st).next_expected := by
        rcases Nat.eq_zero_or_pos st.next_expected with h0 | hpos
        · have hs0 : s = 0 := by
            rcases Nat.eq_zero_or_pos s with h5 | h5
            · exact h5
            · exact absurd ⟨h0, h5⟩ hz
          have hlk : dictLookup st.next_expected (dictInsert s d st.recv_buffer)
              = some d := by
            rw [h0, hs0]
            exact dictLookup_insert_self 0 d st.recv_buffer
          rw [drainState_ne_eq]
          have hadv := drainGo_advance (dictInsert s d st.recv_buffer).length
            (dictInsert s d st.recv_buffer) st.next_expected st.ready_data d
            (le_refl _) hlk
          omega
        · exact le_trans hpos (drainState_ne_le s d st)
      have hfin2 : (drainState s d st).next_expected ≤ 4294967296 := by
        rw [drainState_ne_eq]
        exact drainGo_ne_bound _ _ _ _ hb1 hne
      have hok := handleData_eq_ok s d st (fun hlt => absurd hlt hdup) ⟨hfin1, hfin2⟩
      rw [if_neg hdup] at hok
      constructor
      · rw [hok]
        constructor
        · intro hc; cases hc
        · intro hc; exact absurd hc hz
      · intro st2 acks h2
        rw [hok] at h2
        injection Except.ok.inj h2 with h4 h5
        rw [if_neg hdup, ← h5, ← h4]

/-- Witness for `handleData_ack_per_arrival`: at the initial receiver
state an out-of-order first arrival (seq_num 3) makes the handler die
on the ACK-encoding failure. -/
theorem handleData_ack_per_arrival_witness :
    handleData 3 [9] initRecv = .error () ↔
      initRecv.next_expected = 0 ∧ 0 < 3 :=
  (handleData_ack_per_arrival initRecv ⟨[], by decide, rfl⟩ 3 (by norm_num) [9]).1

/-- The inductive invariant behind in-order release.  `payload` gives
the payload carried by every DATA packet with a given seq_num (a
retransmission resends the identical packet), `seen` lists the
seq_nums processed so far, `m` bounds all seq_nums in play. -/
def C1Inv (payload : Nat → Data) (m : Nat) (seen : List Nat)
    (st : RecvState) : Prop :=
  st.ready_data = (List.range st.next_expected).map payload ∧
  (∀ e ∈ st.recv_buffer, e.2 = payload e.1 ∧ e.1 ∈ seen) ∧
  (∀ x ∈ seen, x < st.next_expected ∨ keyMem x st.recv_buffer) ∧
  dictLookup st.next_expected st.recv_buffer = none ∧
  (∀ k, k < st.next_expected → k ∈ seen) ∧
  (∀ x ∈ seen, x < m)

theorem map_range_concat (payload : Nat → Data) (a b : Nat) (h : a ≤ b) :
    (List.range a).map payload ++ (List.range' a (b - a)).map payload =
      (List.range b).map payload := by
  rw [← List.map_append]
  congr 1
  rw [List.range_eq_range', List.range_eq_range']
  have h6 := List.range'_append 0 a (b - a) 1
  simp only [Nat.zero_add, Nat.one_mul] at h6
  rw [h6]
  congr 1
  omega

theorem C1Inv_step (payload : Nat → Data) (m : Nat) (seen : List Nat)
    (st : RecvState) (s : Nat) (hInv : C1Inv payload m seen st) (hs : s < m)
    (hm : m ≤ 4294967296) (hne : 0 < st.next_expected ∨ s = 0) :
    ∃ st2 acks, handleData s (payload s) st = .ok (st2, acks) ∧
      C1Inv payload m (s :: seen) st2 ∧ 0 < st2.next_expected := by
  obtain ⟨hready, hvals, hloc, hfree, hbelow, hseenm⟩ := hInv
  have hneM : st.next_expected ≤ m := by
    rcases Nat.eq_zero_or_pos st.next_expected with h0 | hpos
    · omega
    · have := hseenm _ (hbelow (st.next_expected - 1) (by omega))
      omega
  have hb1 : ∀ e ∈ dictInsert s (payload s) st.recv_buffer, e.1 < m := by
    intro e he
    rcases mem_dictInsert he with h4 | h4
    · simp [h4, hs]
    · exact hseenm _ (hvals e h4).2
  have hfin2 : (drainState s (payload s) st).next_expected ≤ m := by
    rw [drainState_ne_eq]
    exact drainGo_ne_bound _ _ _ _ hb1 hneM
  have hfin1 : 1 ≤ (drainState s (payload s) st).next_expected := by
    rcases hne with hpos | hs0
    · exact le_trans hpos (drainState_ne_le _ _ _)
    · subst hs0
      rcases Nat.eq_zero_or_pos st.next_expected with h0 | hpos
      · have hlk : dictLookup st.next_expected
            (dictInsert 0 (payload 0) st.recv_buffer) = some (payload 0) := by
          rw [h0]
          exact dictLookup_insert_self 0 _ st.recv_buffer
        rw [drainState_ne_eq]
        have hadv := drainGo_advance (dictInsert 0 (payload 0) st.recv_buffer).length
          (dictInsert 0 (payload 0) st.recv_buffer) st.next_expected st.ready_data _
          (le_refl _) hlk
        omega
      · exact le_trans hpos (drainState_ne_le _ _ _)
  have hok := handleData_eq_ok s (payload s) st
    (fun hlt => ⟨by omega, by omega⟩) ⟨hfin1, by omega⟩
  refine ⟨drainState s (payload s) st, _, hok, ?_, hfin1⟩
  have hvals1 : ∀ e ∈ dictInsert s (payload s) st.recv_buffer,
      e.2 = payload e.1 ∧ e.1 ∈ s :: seen := by
    intro e he
    rcases mem_dictInsert he with h4 | h4
    · simp [h4]
    · exact ⟨(hvals e h4).1, List.mem_cons_of_mem _ (hvals e h4).2⟩
  refine ⟨?_, ?_, ?_, drainState_lookup_none _ _ _, ?_, ?_⟩
  · rw [drainState_ready_eq, drainState_ne_eq]
    rw [drainGo_ready payload _ _ _ _ (fun e he => (hvals1 e he).1), hready]
    exact map_range_concat payload st.next_expected _ (drainGo_ne_le _ _ _ _)
  · intro e he
    rw [drainState_buf_eq] at he
    exact drainGo_entries _ _ _ _ _ hvals1 e he
  · intro x hx
    rcases List.mem_cons.mp hx with hx1 | hx2
    · subst hx1
      rcases drainGo_keyMem (dictInsert x (payload x) st.recv_buffer).length
          (dictInsert x (payload x) st.recv_buffer) st.next_expected st.ready_data x
          (keyMem_dictInsert_self x _ _) with h5 | h5
      · left; rw [drainState_ne_eq]; exact h5
      · right; rw [drainState_buf_eq]; exact h5
    · rcases hloc x hx2 with h5 | h5
      · left
        have := drainState_ne_le s (payload s) st
        omega
      · rcases drainGo_keyMem (dictInsert s (payload s) st.recv_buffer).length
            (dictInsert s (payload s) st.recv_buffer) st.next_expected st.ready_data x
            (keyMem_dictInsert_of_mem h5) with h7 | h7
        · left; rw [drainState_ne_eq]; exact h7
        · right; rw [drainState_buf_eq]; exact h7
  · intro k hk
    rw [drainState_ne_eq] at hk
    by_cases hk2 : k < st.next_expected
    · exact List.mem_cons_of_mem _ (hbelow k hk2)
    · obtain ⟨v, hv⟩ := drainGo_covered (dictInsert s (payload s) st.recv_buffer).length
        (dictInsert s (payload s) st.recv_buffer) st.next_expected st.ready_data k
        (by omega) hk
      rcases mem_dictInsert hv with h4 | h4
      · injection h4 with h5 h6
        rw [h5]
        exact List.mem_cons_self _ _
      · exact List.mem_cons_of_mem _ (hvals (k, v) h4).2
  · intro x hx
    rcases List.mem_cons.mp hx with h4 | h4
    · omega
    · exact hseenm x h4

theorem processArrivals_cons (s : Nat) (d : Data) (rest : List (Nat × Data))
    (st st1 : RecvState) (acks : List Int)
    (h : handleData s d st = .ok (st1, acks)) :
    processArrivals ((s, d) :: rest) st = processArrivals rest st1 := by
  simp [processArrivals, h]

theorem processArrivals_C1 (payload : Nat → Data) (m : Nat)
    (hm : m ≤ 4294967296) :
    ∀ (l : List Nat) (seen : List Nat) (st : RecvState),
    C1Inv payload m seen st → 0 < st.next_expected → (∀ x ∈ l, x < m) →
    ∃ st2, processArrivals (l.map (fun x => (x, payload x))) st = .ok st2 ∧
      C1Inv payload m (l.reverse ++ seen) st2 ∧ 0 < st2.next_expected := by
  intro l
  induction l with
  | nil =>
    intro seen st hInv hpos hl
    exact ⟨st, rfl, by simpa using hInv, hpos⟩
  | cons x rest ih =>
    intro seen st hInv hpos hl
    obtain ⟨st1, acks, hok, hInv1, hpos1⟩ := C1Inv_step payload m seen st x hInv
      (hl x (List.mem_cons_self _ _)) hm (Or.inl hpos)
    obtain ⟨st2, hok2, hInv2, hpos2⟩ := ih (x :: seen) st1 hInv1 hpos1
      (fun y hy => hl y (List.mem_cons_of_mem _ hy))
    refine ⟨st2, ?_, ?_, hpos2⟩
    · simp only [List.map_cons, processArrivals, hok]
      exact hok2
    · have hperm : (x :: rest).reverse ++ seen = rest.reverse ++ (x :: seen) := by
        simp
      rw [hperm]
      exact hInv2

theorem C1Inv_initRecv (payload : Nat → Data) (m : Nat) :
    C1Inv payload m [] initRecv := by
  refine ⟨rfl, ?_, ?_, rfl, ?_, ?_⟩ <;> intro x hx <;> simp [initRecv] at hx

/-- C1, amended.  For every m in [1, 2^32] and every arrival sequence
that carries only seq_nums below m, covers every seq_num in [0, m)
at least once (arbitrary permutation and duplication), and whose FIRST
arrival carries seq_num 0, processing all arrivals succeeds and leaves
the ready queue holding exactly the payloads of 0 .. m−1 in strictly
increasing seq_num order with no duplicates (each packet with seq_num
s carries the payload `payload s`, as retransmissions repeat the same
packet).  The first-arrival restriction is forced by the code: an
out-of-order first arrival makes `_send_ack` encode −1 and kills the
receive thread (see `inorder_release_fails_on_reordered_first`). -/
theorem inorder_release_when_first_is_zero (m : Nat) (payload : Nat → Data)
    (seqs : List Nat) (hm0 : 0 < m) (hm : m ≤ 4294967296)
    (hub : ∀ x ∈ seqs, x < m) (hcov : ∀ k, k < m → k ∈ seqs)
    (hhead : seqs.head? = some 0) :
    ∃ st2, processArrivals (seqs.map (fun x => (x, payload x))) initRecv = .ok st2 ∧
      st2.ready_data = (List.range m).map payload ∧ st2.next_expected = m := by
  cases seqs with
  | nil => simp at hhead
  | cons x rest =>
    have hx0 : x = 0 := by simpa using hhead
    subst hx0
    obtain ⟨st1, acks, hok1, hInv1, hpos1⟩ := C1Inv_step payload m [] initRecv 0
      (C1Inv_initRecv payload m) (hub 0 (List.mem_cons_self _ _)) hm (Or.inr rfl)
    obtain ⟨st2, hok2, hInv2, hpos2⟩ := processArrivals_C1 payload m hm rest
      [0] st1 hInv1 hpos1 (fun y hy => hub y (List.mem_cons_of_mem _ hy))
    obtain ⟨hready2, hvals2, hloc2, hfree2, hbelow2, hseenm2⟩ := hInv2
    have hmem : ∀ y, y ∈ rest.reverse ++ [0] ↔ y ∈ (0 : Nat) :: rest := by
      intro y
      simp [List.mem_append, List.mem_reverse, List.mem_cons, or_comm]
    have hne2_le : st2.next_expected ≤ m := by
      have h5 := hseenm2 _ (hbelow2 (st2.next_expected - 1) (by omega))
      omega
    have hne2_ge : m ≤ st2.next_expected := by
      by_contra h5
      push_neg at h5
      have h6 : st2.next_expected ∈ rest.reverse ++ [0] :=
        (hmem _).mpr (hcov _ h5)
      rcases hloc2 _ h6 with h7 | h7
      · omega
      · exact (dictLookup_eq_none_iff.mp hfree2) h7
    have hne2 : st2.next_expected = m := le_antisymm hne2_le hne2_ge
    refine ⟨st2, ?_, ?_, hne2⟩
    · rw [List.map_cons, processArrivals_cons _ _ _ _ _ _ hok1]
      exact hok2
    · rw [hready2, hne2]

/-- Witness for `inorder_release_when_first_is_zero`: m = 3 with the
arrival order 0, 2, 1, 2 (out of order, with a duplicate). -/
theorem inorder_release_witness :
    ∃ st2, processArrivals ([0, 2, 1, 2].map (fun x => (x, [x + 10]))) initRecv
        = .ok st2 ∧
      st2.ready_data = (List.range 3).map (fun x => [x + 10]) ∧
      st2.next_expected = 3 :=
  inorder_release_when_first_is_zero 3 (fun x => [x + 10]) [0, 2, 1, 2]
    (by norm_num) (by norm_num) (by decide)
    (by intro k hk; interval_cases k <;> decide) rfl

/-- C1, counterexample.  The claim quantifies over ALL permutations:
for m = 2 and the arrival order 1, 0 the very first handler call ends
with `_send_ack` building an ACK with value −1, `struct.pack` raises
`struct.error`, the receive thread dies, and arrival 0 is never
processed — the ready queue never receives the two payloads. -/
theorem inorder_release_fails_on_reordered_first :
    processArrivals [(1, [1]), (0, [0])] initRecv = .error () ∧
    ¬ ∃ st2, processArrivals [(1, [1]), (0, [0])] initRecv = .ok st2 := by
  refine ⟨by rfl, ?_⟩
  rintro ⟨st2, h⟩
  rw [show processArrivals [(1, [1]), (0, [0])] initRecv = .error () from rfl] at h
  cases h

theorem chunksGo_flatten : ∀ (fuel : Nat) (data : Data), data.length ≤ fuel →
    (chunksGo fuel data).flatten = data := by
  intro fuel
  induction fuel with
  | zero =>
    intro data h
    have hd : data = [] := List.length_eq_zero.mp (Nat.le_zero.mp h)
    subst hd
    simp [chunksGo]
  | succ fuel ih =>
    intro data h
    cases data with
    | nil => simp [chunksGo]
    | cons b rest =>
      simp only [chunksGo, List.flatten_cons]
      rw [ih]
      · exact List.take_append_drop 1400 (b :: rest)
      · have h2 := List.length_drop 1400 (b :: rest)
        simp only [List.length_cons] at h h2
        omega

theorem chunksGo_length : ∀ (fuel : Nat) (data : Data), data.length ≤ fuel →
    (chunksGo fuel data).length = (data.length + 1399) / 1400 := by
  intro fuel
  induction fuel with
  | zero =>
    intro data h
    have hd : data = [] := List.length_eq_zero.mp (Nat.le_zero.mp h)
    subst hd
    simp [chunksGo]
  | succ fuel ih =>
    intro data h
    cases data with
    | nil => simp [chunksGo]
    | cons b rest =>
      simp only [chunksGo, List.length_cons]
      rw [ih]
      · have h2 := List.length_drop 1400 (b :: rest)
        simp only [List.length_cons] at h2
        omega
      · have h2 := List.length_drop 1400 (b :: rest)
        simp only [List.length_cons] at h h2
        omega

theorem chunksGo_le1400 : ∀ (fuel : Nat) (data : Data),
    ∀ c ∈ chunksGo fuel data, c.length ≤ 1400 := by
  intro fuel
  induction fuel with
  | zero => intro data c hc; simp [chunksGo] at hc
  | succ fuel ih =>
    intro data c hc
    cases data with
    | nil => simp [chunksGo] at hc
    | cons b rest =>
      simp only [chunksGo, List.mem_cons] at hc
      rcases hc with hc | hc
      · subst hc
        simp [List.length_take]
      · exact ih _ c hc

theorem to_bytes_data_some (seq : Nat) (c : Data) (h : seq < 4294967296) :
    ∃ bs, to_bytes ⟨.DATA, (seq : Int), c⟩ = some bs := by
  have ha : (0 : Int) ≤ (seq : Int) := by omega
  have hb : ((seq : Int)).toNat < 4294967296 := by omega
  unfold to_bytes packUInt32
  rw [if_pos ha, if_pos hb]
  exact ⟨_, rfl⟩

/-- In-order zero-loss processing: starting from an empty buffer with
counter `n`, handling segments with consecutive seq_nums n, n+1, ...
releases each immediately; the buffer stays empty and the queue grows
by the segments in order. -/
theorem processArrivals_inorder : ∀ (segs : List Data) (n : Nat) (q : List Data),
    n + segs.length ≤ 4294967296 →
    processArrivals ((List.range' n segs.length).zip segs) ⟨[], n, q⟩ =
      .ok ⟨[], n + segs.length, q ++ segs⟩ := by
  intro segs
  induction segs with
  | nil => intro n q h; simp [processArrivals]
  | cons c rest ih =>
    intro n q h
    have hstep : handleData n c ⟨[], n, q⟩ =
        .ok (⟨[], n + 1, q ++ [c]⟩, [ackValue (n + 1)]) := by
      obtain ⟨bs, hbs⟩ := sendAckBytes_some (n + 1) (by omega)
        (by simp at h; omega)
      have hds : drainState n c ⟨[], n, q⟩ = ⟨[], n + 1, q ++ [c]⟩ := by
        simp [drainState, dictInsert, drainGo, dictLookup, dictErase]
      simp [handleData, hds, hbs]
    rw [List.length_cons, List.range'_succ, List.zip_cons_cons,
      processArrivals_cons _ _ _ _ _ _ hstep,
      ih (n + 1) (q ++ [c]) (by simp at h ⊢; omega)]
    have harr : n + 1 + rest.length = n + (rest.length + 1) := by omega
    have happ : (q ++ [c]) ++ rest = q ++ c :: rest := by simp
    rw [harr, happ]

theorem foldl_handleAck_length (ks : List Nat) : ∀ (w : SendWindow),
    (ks.foldl (fun acc k => handleAck k acc) w).length ≤ w.length := by
  induction ks with
  | nil => intro w; exact le_refl _
  | cons k rest ih =>
    intro w
    simp only [List.foldl_cons]
    exact le_trans (ih (handleAck k w)) (List.length_filter_le _ _)

/-- With at most 5 segments in total, the capacity wait never triggers
under ANY ACK-processing schedule: ACK processing only shrinks the
window, so the window at the k-th send holds at most k entries. -/
theorem sendLoop_ok (sched : Nat → List Nat) : ∀ (l : List Data) (seq : Nat)
    (w : SendWindow), w.length + l.length ≤ 5 →
    seq + l.length ≤ 4294967296 →
    ∃ wfin, sendLoop sched l seq w = .ok ((List.range' seq l.length).zip l, wfin) := by
  intro l
  induction l with
  | nil =>
    intro seq w h1 h2
    exact ⟨w, by simp [sendLoop]⟩
  | cons c rest ih =>
    intro seq w h1 h2
    have hw1 := foldl_handleAck_length (sched seq) w
    have hlt : ¬ 5 ≤ ((sched seq).foldl (fun acc k => handleAck k acc) w).length := by
      simp only [List.length_cons] at h1
      omega
    obtain ⟨bs, hbs⟩ := to_bytes_data_some seq c (by simp at h2; omega)
    obtain ⟨wfin, hrec⟩ := ih (seq + 1)
      ((sched seq).foldl (fun acc k => handleAck k acc) w ++ [(⟨seq, c⟩, 0)])
      (by simp only [List.length_append, List.length_singleton, List.length_nil,
            List.length_cons] at h1 ⊢; omega)
      (by simp only [List.length_cons] at h2 ⊢; omega)
    refine ⟨wfin, ?_⟩
    simp only [sendLoop, sendSegment, if_neg hlt, hbs, hrec, List.length_cons,
      List.range'_succ, List.zip_cons_cons]
    rfl

/-- With six or more segments still to send, the no-ACK schedule drives
the window to 5 entries and the next `_send` enters the permanent
busy-wait: `send` deadlocks. -/
theorem sendLoop_deadlock : ∀ (l : List Data) (seq : Nat) (w : SendWindow),
    w.length ≤ 5 → 6 ≤ w.length + l.length → seq + l.length ≤ 4294967296 →
    sendLoop noAckSched l seq w = .error .deadlock := by
  intro l
  induction l with
  | nil =>
    intro seq w h1 h2 _
    simp only [List.length_nil] at h2
    exact absurd h2 (by omega)
  | cons c rest ih =>
    intro seq w h1 h2 h3
    by_cases hfull : 5 ≤ w.length
    · simp [sendLoop, noAckSched, sendSegment, hfull]
    · obtain ⟨bs, hbs⟩ := to_bytes_data_some seq c
        (by simp only [List.length_cons] at h3; omega)
      have hrec := ih (seq + 1) (w ++ [(⟨seq, c⟩, 0)])
        (by simp only [List.length_append, List.length_singleton, List.length_nil,
              List.length_cons]; omega)
        (by simp only [List.length_append, List.length_singleton, List.length_nil,
              List.length_cons] at h2 ⊢; omega)
        (by simp only [List.length_cons] at h3 ⊢; omega)
      simp only [sendLoop, noAckSched, List.foldl_nil, sendSegment, if_neg hfull,
        hbs, hrec]
      rfl

/-- The shortest input needing more than `_SEND_WINDOW_SIZE = 5`
segments: 7001 bytes, i.e. 6 chunks. -/
def data7001 : Data := List.replicate 7001 0

/-- C3, counterexample.  The claim quantifies over every L > 1400, but
for a 7001-byte input (6 segments) there is a zero-loss schedule — no
ACK processed before the sender reaches its sixth `_send`, the
inevitable one whenever the ACK round trip is slower than the
segmentation loop — under which the first five segments fill the
window and the sixth `_send` enters the busy-wait holding the lock.
The ACK thread can then never run, the wait never exits, and `send`
never transmits the sixth segment: the receiver cannot reconstruct the
input. -/
theorem send_deadlocks_beyond_window :
    1400 < data7001.length ∧
    sendLoop noAckSched (chunks data7001) 0 [] = .error .deadlock := by
  have hlen : data7001.length = 7001 := by
    simp only [data7001, List.length_replicate]
  have hch : (chunks data7001).length = 6 := by
    rw [chunks, chunksGo_length data7001.length data7001 (le_refl _), hlen]
  constructor
  · rw [hlen]
    norm_num
  · refine sendLoop_deadlock (chunks data7001) 0 [] (by simp) ?_ ?_
    · simp [hch]
    · rw [hch]
      norm_num

/-- C3, amended.  For every byte sequence of length L with
1400 < L ≤ 7000 — at most `_SEND_WINDOW_SIZE = 5` segments — and EVERY
schedule of ACK processing between the per-segment sends, `send`
splits the data into consecutive chunks of at most 1400 bytes and
transmits them in order as independent DATA segments with consecutive
seq_nums 0, 1, 2, ..., exactly ceil(L/1400) segments in total, without
ever entering the window-capacity wait; with loss probability 0 the
receiver releases the payloads in order and their concatenation is
exactly the original L bytes.  The bound L ≤ 7000 is forced by the
code: with six or more segments the no-ACK schedule makes the sixth
`_send` deadlock in the lock-held busy-wait even at loss probability 0
(see `send_deadlocks_beyond_window`), so the unconditional claim fails
beyond five segments. -/
theorem send_zero_loss_end_to_end (data : Data) (sched : Nat → List Nat)
    (hlen : 1400 < data.length) (hcap : data.length ≤ 7000) :
    ∃ segs wfin st2,
      sendLoop sched (chunks data) 0 [] = .ok (segs, wfin) ∧
      segs.length = (data.length + 1399) / 1400 ∧
      segs.map Prod.fst = List.range segs.length ∧
      (∀ sg ∈ segs, sg.2.length ≤ 1400) ∧
      (segs.map Prod.snd).flatten = data ∧
      processArrivals segs initRecv = .ok st2 ∧
      st2.ready_data.flatten = data := by
  have hchlen : (chunks data).length = (data.length + 1399) / 1400 := by
    rw [chunks]
    exact chunksGo_length data.length data (le_refl _)
  have hch5 : (chunks data).length ≤ 5 := by omega
  obtain ⟨wfin, hok⟩ := sendLoop_ok sched (chunks data) 0 []
    (by simp only [List.length_nil]; omega) (by omega)
  have hrlen : (List.range' 0 (chunks data).length).length = (chunks data).length :=
    List.length_range' _ _ _
  have hzlen : ((List.range' 0 (chunks data).length).zip (chunks data)).length
      = (chunks data).length := by
    rw [List.length_zip, hrlen, Nat.min_self]
  refine ⟨(List.range' 0 (chunks data).length).zip (chunks data), wfin,
    ⟨[], (chunks data).length, chunks data⟩, hok, ?_, ?_, ?_, ?_, ?_, ?_⟩
  · rw [hzlen, hchlen]
  · rw [hzlen, List.range_eq_range']
    exact List.map_fst_zip _ _ (le_of_eq hrlen)
  · intro sg hsg
    obtain ⟨a, b⟩ := sg
    exact chunksGo_le1400 data.length data b (List.of_mem_zip hsg).2
  · rw [List.map_snd_zip _ _ (le_of_eq hrlen.symm), chunks]
    exact chunksGo_flatten data.length data (le_refl _)
  · have hord := processArrivals_inorder (chunks data) 0 [] (by omega)
    simpa [initRecv] using hord
  · show (chunks data).flatten = data
    rw [chunks]
    exact chunksGo_flatten data.length data (le_refl _)

/-- Witness for `send_zero_loss_end_to_end` at a 1401-byte input (two
segments) under the no-ACK schedule. -/
theorem send_zero_loss_end_to_end_witness :
    ∃ segs wfin st2,
      sendLoop noAckSched (chunks (List.replicate 1401 0)) 0 [] = .ok (segs, wfin) ∧
      segs.length = ((List.replicate 1401 (0 : Nat)).length + 1399) / 1400 ∧
      segs.map Prod.fst = List.range segs.length ∧
      (∀ sg ∈ segs, sg.2.length ≤ 1400) ∧
      (segs.map Prod.snd).flatten = List.replicate 1401 0 ∧
      processArrivals segs initRecv = .ok st2 ∧
      st2.ready_data.flatten = List.replicate 1401 0 :=
  send_zero_loss_end_to_end (List.replicate 1401 0) noAckSched
    (by simp only [List.length_replicate]; norm_num)
    (by simp only [List.length_replicate]; norm_num)

/-- The sender-side concurrency model around the window-capacity wait.
`lockHeldBySender` records that the application thread executing
`SWPSender._send` holds `self._lock`: the busy-wait
`while len(self._send_window) >= 5: time.sleep(0.1)` sits inside the
`with self._lock:` block, so the lock stays held across every sleep.
The ACK branch of `SWPSender._recv` and the body of
`SWPSender._retransmit` each acquire the same lock and can only run
while it is free. -/
structure WaitSys where
  sender : SendState
  lockHeldBySender : Bool
  deriving DecidableEq

/-- System steps while the application thread is inside `_send`:
`poll` is one busy-wait iteration (re-check the full window, sleep)
with the lock still held; `exitWait` is the loop exit when capacity
exists, transmitting the packet and finally releasing the lock;
`ackRecv` and `timerFire` are the background threads, runnable only
when the lock is free. -/
inductive WaitStep : WaitSys → WaitSys → Prop where
  | poll (s : WaitSys) (h1 : s.lockHeldBySender = true)
      (h2 : 5 ≤ s.sender.send_window.length) : WaitStep s s
  | exitWait (s : WaitSys) (d : Data) (t : Nat) (h1 : s.lockHeldBySender = true)
      (h2 : s.sender.send_window.length < 5) :
      WaitStep s ⟨⟨s.sender.send_window ++ [(⟨s.sender.next_seq_num, d⟩, t)],
        s.sender.next_seq_num + 1⟩, false⟩
  | ackRecv (s : WaitSys) (k : Nat) (h : s.lockHeldBySender = false) :
      WaitStep s ⟨⟨handleAck k s.sender.send_window, s.sender.next_seq_num⟩, false⟩
  | timerFire (s : WaitSys) (h : s.lockHeldBySender = false) : WaitStep s s

/-- C5 (code bug).  A `send` blocked on a full window is NEVER
unblocked: from any state where the sender busy-waits holding the lock
with 5 outstanding entries, every reachable state is that same state —
the only enabled step is another sleep iteration, and the ACK-handling
thread can never acquire the lock to remove a window entry.  The claim
says the arriving ACK is processed and wakes the sender; the code
deadlocks instead, because the wait loop sleeps inside `with
self._lock`. -/
theorem blocked_send_never_unblocked (w : SendWindow) (n : Nat)
    (hfull : 5 ≤ w.length) (s2 : WaitSys)
    (hreach : Relation.ReflTransGen WaitStep ⟨⟨w, n⟩, true⟩ s2) :
    s2 = ⟨⟨w, n⟩, true⟩ := by
  induction hreach with
  | refl => rfl
  | tail hab hbc ih =>
    subst ih
    cases hbc with
    | poll h1 h2 => rfl
    | exitWait d t h1 h2 =>
      simp only at h2
      omega
    | ackRecv k h => simp at h
    | timerFire h => simp at h

/-- A concrete full send window: five outstanding unacknowledged
segments. -/
def fullWindow : SendWindow :=
  [(⟨0, []⟩, 0), (⟨1, []⟩, 0), (⟨2, []⟩, 0), (⟨3, []⟩, 0), (⟨4, []⟩, 0)]

/-- Witness for `blocked_send_never_unblocked`: with the concrete full
window, one sleep iteration loops back to the same blocked state. -/
theorem blocked_send_never_unblocked_witness :
    (⟨⟨fullWindow, 5⟩, true⟩ : WaitSys) = ⟨⟨fullWindow, 5⟩, true⟩ :=
  blocked_send_never_unblocked fullWindow 5 (by decide) _
    (Relation.ReflTransGen.single (WaitStep.poll _ rfl (by decide)))
